import Mathlib

/-!
Verification of the `rtk-setup-next` CLI scaffolding tool (`setup.js`,
second revision — the one with the try/catch around the install step).

The tool is a single-pass pipeline:
  1. pick an install command from the CLI flags,
  2. run the package-manager install as a child process (fatal on failure),
  3. write three fixed template files (slice, store, provider),
  4. patch (or freshly create) `src/app/layout.js` to use the provider.

File contents are modelled as `List Char`; the filesystem is the record of
the four paths the tool touches; messages printed with `console.log` /
`console.error` are modelled as an ordered list of tags.
-/

set_option maxRecDepth 100000

/-! ## String machinery (ECMAScript semantics on `List Char`) -/

/-- The character class stripped by ECMAScript `String.prototype.trim`
(WhiteSpace and LineTerminator code points). -/
def isWS (c : Char) : Bool :=
  c == ' ' || c == '\n' || c == '\t' || c == '\r' || c == '\x0B' ||
  c == '\x0C' || c == '\u00A0' || c == '\uFEFF' || c == '\u2028' || c == '\u2029'

/-- Strip leading whitespace. -/
def trimLeft (s : List Char) : List Char := s.dropWhile isWS

/-- Strip trailing whitespace. -/
def trimRight (s : List Char) : List Char := (s.reverse.dropWhile isWS).reverse

/-- ECMAScript `s.trim()`. -/
def jsTrim (s : List Char) : List Char := trimRight (trimLeft s)

/-- Boolean prefix test on character lists. -/
def isPre : List Char → List Char → Bool
  | [], _ => true
  | _ :: _, [] => false
  | a :: p, b :: s => a == b && isPre p s

/-- Occurrence of pat in s starting at position i. -/
def occursAt (pat s : List Char) (i : Nat) : Prop := isPre pat (s.drop i) = true

/-- ECMAScript `s.indexOf(pat)`: index of the first occurrence
(`none` models the JavaScript result `-1`). -/
def indexOfSub (pat : List Char) : List Char → Option Nat
  | [] => if isPre pat [] then some 0 else none
  | b :: s => if isPre pat (b :: s) then some 0 else (indexOfSub pat s).map (· + 1)

/-- ECMAScript `s.lastIndexOf(pat)`: index of the last occurrence
(`none` models the JavaScript result `-1`). -/
def lastIndexOfSub (pat : List Char) : List Char → Option Nat
  | [] => if isPre pat [] then some 0 else none
  | b :: s =>
    match lastIndexOfSub pat s with
    | some i => some (i + 1)
    | none => if isPre pat (b :: s) then some 0 else none

/-- ECMAScript `s.includes(pat)`. -/
def containsSub (pat s : List Char) : Bool := (indexOfSub pat s).isSome

/-- Number of positions at which `pat` occurs in `s`. -/
def countOccur (pat s : List Char) : Nat :=
  ((List.range (s.length + 1)).filter (fun i => isPre pat (s.drop i))).length

/-! ## Constants from `setup.js` -/

/-- Flag literal checked for pnpm with an includes test on process.argv. -/
def pnpmFlag : List Char := "--pnpm".data

/-- Flag literal checked for yarn with an includes test on process.argv. -/
def yarnFlag : List Char := "--yarn".data

/-- Install command chosen when the pnpm flag is present. -/
def pnpmAdd : List Char := "pnpm add".data

/-- Install command chosen when the yarn flag is present. -/
def yarnAdd : List Char := "yarn add".data

/-- Default install command for npm. -/
def npmInstall : List Char := "npm install --save".data

/-- The importStatement constant of setup.js: the provider import line. -/
def importStatement : List Char :=
  "import \x7b ReduxProvider \x7d from \x27./redux/provider\x27;".data

/-- The wrapper name `"ReduxProvider"` checked by `content.includes`. -/
def rpName : List Char := "ReduxProvider".data

/-- The pattern `"return ("` searched by `content.indexOf`. -/
def retOpen : List Char := "return (".data

/-- The pattern `");"` searched by `content.lastIndexOf`. -/
def closePat : List Char := ");".data

/-- The `"\n\n"` separator used when prepending the import statement. -/
def nl2 : List Char := "\n\n".data

/-- Text of the wrapper template before `${returnContent}`. -/
def wrapPre : List Char := "\n          <ReduxProvider>\n            ".data

/-- Text of the wrapper template after `${returnContent}`. -/
def wrapPost : List Char := "\n          </ReduxProvider>\n        ".data

/-- The raw `demoSlice.js` template literal (before `.trim()`). -/
def demoSliceRaw : String :=
  "\nimport \x7b createSlice \x7d from \"@reduxjs/toolkit\";\n\nconst demoSlice = createSlice(\x7b\n  name: \"demo\",\n  initialState: \x7b\n    value: 0,\n  \x7d,\n  reducers: \x7b\n    increment: (state) => \x7b\n      state.value += 1;\n    \x7d,\n    decrement: (state) => \x7b\n      state.value -= 1;\n    \x7d,\n  \x7d\n\x7d);\n\nexport const \x7b increment, decrement \x7d = demoSlice.actions;\n\nexport default demoSlice.reducer;\n  "

/-- Content written to `src/app/redux/features/demo/demoSlice.js`. -/
def demoSliceTemplate : List Char := jsTrim demoSliceRaw.data

/-- The raw `store.js` template literal (before `.trim()`). -/
def storeRaw : String :=
  "\nimport \x7b configureStore \x7d from \x27@reduxjs/toolkit\x27;\nimport demoReducer from \x27./features/demo/demoSlice\x27;\n\nexport const store = () => \x7b\n  return configureStore(\x7b\n    reducer: \x7b\n      demo: demoReducer\n    \x7d\n  \x7d);\n\x7d;\n  "

/-- Content written to `src/app/redux/store.js`. -/
def storeTemplate : List Char := jsTrim storeRaw.data

/-- The raw `provider.jsx` template literal (before `.trim()`). -/
def providerRaw : String :=
  "\n  \x27use client\x27;\n\nimport \x7b Provider \x7d from \"react-redux\";\nimport \x7b useRef, useEffect, useMemo \x7d from \"react\";\nimport \x7b store \x7d from \x27./store\x27;\n\n\n// Most recommended version - balances optimization with reactivity\nexport function ReduxProvider(\x7b children \x7d) \x7b\n  const storeRef = useRef(null);\n  \n  // Initialize store only once\n  if (!storeRef.current) \x7b\n    storeRef.current = typeof store === \x27function\x27 ? store() : store;\n  \x7d\n\n  // Memoize children to prevent unnecessary re-renders of child components\n  // but don\x27t memoize the Provider wrapper itself\n  const memoizedChildren = useMemo(() => children, [children]);\n\n  // Effect for cleanup\n  useEffect(() => \x7b\n    return () => \x7b\n      if (process.env.NODE_ENV === \x27development\x27) \x7b\n        console.log(\x27Redux Provider unmounted\x27);\n      \x7d\n    \x7d;\n  \x7d, []);\n\n  return (\n    <Provider store=\x7bstoreRef.current\x7d>\n      \x7bmemoizedChildren\x7d\n    </Provider>\n  );\n\x7d\n\nexport default ReduxProvider;\n\n  "

/-- Content written to `src/app/redux/provider.jsx`. -/
def providerTemplate : List Char := jsTrim providerRaw.data

/-- The raw fresh `layout.js` template literal (before `.trim()`),
with `${importStatement}` already interpolated. -/
def freshLayoutRaw : List Char :=
  "\n".data ++ importStatement ++
  "\n\nexport default function RootLayout(\x7b children \x7d) \x7b\n  return (\n    <ReduxProvider>\n      <html lang=\"en\">\n        <body>\x7bchildren\x7d</body>\n      </html>\n    </ReduxProvider>\n  );\n\x7d\n    ".data

/-- Content written to a freshly created `src/app/layout.js`. -/
def freshLayoutTemplate : List Char := jsTrim freshLayoutRaw

/-! ## The program -/

/-- Selection of installCmd in setup.js: the pnpm flag wins, then the yarn
flag, else the npm default (a conditional chain over two includes tests
on process.argv). -/
def selectInstallCmd (argv : List (List Char)) : List Char :=
  if argv.contains pnpmFlag then pnpmAdd
  else if argv.contains yarnFlag then yarnAdd
  else npmInstall

/-- The ambient environment of one invocation: the CLI arguments, which
package-manager lock files exist in the working directory, and whether the
pnpm/yarn executables would answer a version probe.  The code of `setup.js`
reads only `argv`; the other fields exist so that claims about lock-file
detection and executable probing can be stated. -/
structure CliEnv where
  argv : List (List Char)
  hasPnpmLock : Bool
  hasYarnLock : Bool
  hasNpmLock : Bool
  pnpmProbeOk : Bool
  yarnProbeOk : Bool
deriving DecidableEq

/-- The install command the program selects in environment `env`
(the source consults nothing but `process.argv`). -/
def selectCmdEnv (env : CliEnv) : List Char := selectInstallCmd env.argv

/-- Outcome of the `execSync` install call: normal return, or a thrown
error (non-zero exit of the subprocess, or failure to spawn it). -/
inductive InstallResult
  | ok
  | fail
deriving DecidableEq

/-- Tags for the console messages the program prints, in source order. -/
inductive LogMsg
  | installing
  | installFailed
  | skipAlready
  | modifiedLayout
  | warnNoValidReturn
  | warnNoReturn
  | creatingFresh
  | complete
deriving DecidableEq

/-- The four files the tool reads or writes, keyed by their fixed relative
paths; `none` means the path does not exist. -/
structure FState where
  demoSlice : Option (List Char)
  store : Option (List Char)
  provider : Option (List Char)
  layout : Option (List Char)
deriving DecidableEq

/-- The patch attempt performed on the layout content after the step
that prepends the import: locate the first return-open, the last
close-pattern, and
on success splice the wrapper in and return the trimmed result together
with the message printed (`fs.writeFileSync(layoutPath, content.trim())`). -/
def patchCore (c : List Char) : Option (List Char) × LogMsg :=
  match indexOfSub retOpen c with
  | none => (none, LogMsg.warnNoReturn)
  | some returnIndex =>
    let start := returnIndex + retOpen.length
    match lastIndexOfSub closePat c with
    | none => (none, LogMsg.warnNoValidReturn)
    | some e =>
      if start < e then
        let returnContent := jsTrim ((c.drop start).take (e - start))
        let modifiedContent := wrapPre ++ returnContent ++ wrapPost
        (some (jsTrim (c.take start ++ modifiedContent ++ c.drop e)),
         LogMsg.modifiedLayout)
      else (none, LogMsg.warnNoValidReturn)

/-- The whole layout-patch step for an existing `layout.js` with content
`c`: skip when the wrapper name is already present, otherwise prepend
the import statement when missing and attempt the splice.  Returns the content
written back (`none` when the file is left untouched) and the message
printed. -/
def patchExisting (c : List Char) : Option (List Char) × LogMsg :=
  if containsSub rpName c then (none, LogMsg.skipAlready)
  else
    let c1 := if containsSub importStatement c then c
              else importStatement ++ nl2 ++ c
    patchCore c1

/-- One run of `setup.js`: the process exit code, the final state of the
four files, and the ordered console messages. -/
def runSetup (install : InstallResult) (fs : FState) :
    Nat × FState × List LogMsg :=
  match install with
  | InstallResult.fail => (1, fs, [LogMsg.installing, LogMsg.installFailed])
  | InstallResult.ok =>
    let fs1 : FState :=
      { demoSlice := some demoSliceTemplate
        store := some storeTemplate
        provider := some providerTemplate
        layout := fs.layout }
    match fs.layout with
    | some c =>
      match patchExisting c with
      | (some newC, m) =>
        (0, { fs1 with layout := some newC },
         [LogMsg.installing, m, LogMsg.complete])
      | (none, m) => (0, fs1, [LogMsg.installing, m, LogMsg.complete])
    | none =>
      (0, { fs1 with layout := some freshLayoutTemplate },
       [LogMsg.installing, LogMsg.creatingFresh, LogMsg.complete])

/-! ## Concrete environments and marker strings used in claim statements -/

/-- Environment with no CLI flags, a pnpm lock file present, and failing
probes. -/
def env0 : CliEnv :=
  { argv := [], hasPnpmLock := true, hasYarnLock := false,
    hasNpmLock := false, pnpmProbeOk := false, yarnProbeOk := false }

/-- Same as env0 except a yarn lock file is also present. -/
def env1 : CliEnv :=
  { argv := [], hasPnpmLock := true, hasYarnLock := true,
    hasNpmLock := false, pnpmProbeOk := false, yarnProbeOk := false }

/-- Marker: a return statement whose markup opens with the wrapper tag. -/
def nestOpenMark : List Char := "return (\n    <ReduxProvider>".data

/-- Marker: the wrapper closing tag directly wrapping the end of the
returned markup. -/
def nestCloseMark : List Char := "</ReduxProvider>\n  );".data

/-! ## C1: package-manager selection -/

/-- C1 (counterexample): the claimed four-tier precedence fails on the
code.  With no CLI flags and a pnpm lock file present in the working
directory, the claim requires the selector to pick pnpm; the program
selects the npm default, because the source consults only process.argv
and never looks at lock files or probes executables. -/
theorem selector_ignores_lockfiles :
    env0.argv = [] ∧ env0.hasPnpmLock = true ∧
    selectCmdEnv env0 = npmInstall ∧ npmInstall ≠ pnpmAdd := by
  refine ⟨rfl, rfl, rfl, by decide⟩

/-- C1 (amended): the selector is a function of the CLI flags alone — the
pnpm flag wins, then the yarn flag, otherwise the npm default — and two
environments with the same argv (no matter which lock files exist or how
probes would answer) always select the same command. -/
theorem selector_flag_precedence (e1 e2 : CliEnv) (h : e1.argv = e2.argv) :
    selectCmdEnv e1 = selectCmdEnv e2 ∧
    (e1.argv.contains pnpmFlag = true → selectCmdEnv e1 = pnpmAdd) ∧
    (e1.argv.contains pnpmFlag = false → e1.argv.contains yarnFlag = true →
      selectCmdEnv e1 = yarnAdd) ∧
    (e1.argv.contains pnpmFlag = false → e1.argv.contains yarnFlag = false →
      selectCmdEnv e1 = npmInstall) := by
  refine ⟨by simp [selectCmdEnv, selectInstallCmd, h], ?_, ?_, ?_⟩
  · intro h1
    have h1m : pnpmFlag ∈ e1.argv := by simpa using h1
    simp [selectCmdEnv, selectInstallCmd, h1m]
  · intro h1 h2
    have h1m : pnpmFlag ∉ e1.argv := by simpa using h1
    have h2m : yarnFlag ∈ e1.argv := by simpa using h2
    simp [selectCmdEnv, selectInstallCmd, h1m, h2m]
  · intro h1 h2
    have h1m : pnpmFlag ∉ e1.argv := by simpa using h1
    have h2m : yarnFlag ∉ e1.argv := by simpa using h2
    simp [selectCmdEnv, selectInstallCmd, h1m, h2m]

/-- C1 (witness for the amended theorem): env0 and env1 differ in the
lock files present but share an empty argv, so both select npm. -/
theorem selector_flag_precedence_witness :
    selectCmdEnv env0 = selectCmdEnv env1 ∧ selectCmdEnv env0 = npmInstall := by
  obtain ⟨ha, _, _, hc⟩ := selector_flag_precedence env0 env1 rfl
  exact ⟨ha, hc rfl rfl⟩

/-! ## C2: fatal install failure -/

/-- C2: when the install subprocess exits non-zero or fails to spawn, the
run prints the failure and terminates with exit code 1, and the final file
state is exactly the initial one — no template file and no layout file is
created or modified, and nothing downstream (no layout message, no final
success message) runs. -/
theorem install_failure_aborts (fs : FState) :
    runSetup InstallResult.fail fs =
      (1, fs, [LogMsg.installing, LogMsg.installFailed]) := rfl

/-! ## C6: already-patched layout is untouched -/

/-- C6: if the existing layout content contains the substring
ReduxProvider anywhere, the run leaves the layout byte-identical, logs the
skip, and still succeeds. -/
theorem layout_already_patched_noop (fs : FState) (c : List Char)
    (hl : fs.layout = some c) (hrp : containsSub rpName c = true) :
    (runSetup InstallResult.ok fs).2.1.layout = some c ∧
    (runSetup InstallResult.ok fs).2.2 =
      [LogMsg.installing, LogMsg.skipAlready, LogMsg.complete] ∧
    (runSetup InstallResult.ok fs).1 = 0 := by
  simp [runSetup, hl, patchExisting, hrp]

/-- C6 (witness): a concrete layout that already mentions ReduxProvider
is left unchanged. -/
theorem layout_already_patched_noop_witness :
    (runSetup InstallResult.ok
        { demoSlice := none, store := none, provider := none,
          layout := some freshLayoutTemplate }).2.1.layout =
      some freshLayoutTemplate :=
  (layout_already_patched_noop _ freshLayoutTemplate rfl (by decide)).1

/-! ## C7: template writer overwrites unconditionally and is idempotent -/

/-- C7: on any successful run, whatever the prior contents at the three
fixed template paths were, afterwards each of them holds exactly its fixed
template string; consequently a second successful run leaves all three
byte-identical to the first. -/
theorem template_writes_fixed (fs : FState) :
    (runSetup InstallResult.ok fs).2.1.demoSlice = some demoSliceTemplate ∧
    (runSetup InstallResult.ok fs).2.1.store = some storeTemplate ∧
    (runSetup InstallResult.ok fs).2.1.provider = some providerTemplate ∧
    ((runSetup InstallResult.ok (runSetup InstallResult.ok fs).2.1).2.1.demoSlice =
      (runSetup InstallResult.ok fs).2.1.demoSlice ∧
     (runSetup InstallResult.ok (runSetup InstallResult.ok fs).2.1).2.1.store =
      (runSetup InstallResult.ok fs).2.1.store ∧
     (runSetup InstallResult.ok (runSetup InstallResult.ok fs).2.1).2.1.provider =
      (runSetup InstallResult.ok fs).2.1.provider) := by
  have key : ∀ g : FState,
      (runSetup InstallResult.ok g).2.1.demoSlice = some demoSliceTemplate ∧
      (runSetup InstallResult.ok g).2.1.store = some storeTemplate ∧
      (runSetup InstallResult.ok g).2.1.provider = some providerTemplate := by
    intro g
    cases hg : g.layout with
    | none => simp [runSetup, hg]
    | some c =>
      cases hp : patchExisting c with
      | mk w m => cases w <;> simp [runSetup, hg, hp]
  obtain ⟨h1, h2, h3⟩ := key fs
  obtain ⟨g1, g2, g3⟩ := key (runSetup InstallResult.ok fs).2.1
  exact ⟨h1, h2, h3, g1.trans h1.symm, g2.trans h2.symm, g3.trans h3.symm⟩

/-! ## C8: fresh layout creation -/

/-- C8: when no layout file exists, a successful run creates it with the
fixed fresh template, which starts with the provider import line and whose
returned markup is nested directly inside the wrapper element. -/
theorem fresh_layout_created (fs : FState) (h : fs.layout = none) :
    (runSetup InstallResult.ok fs).2.1.layout = some freshLayoutTemplate ∧
    isPre importStatement freshLayoutTemplate = true ∧
    containsSub nestOpenMark freshLayoutTemplate = true ∧
    containsSub nestCloseMark freshLayoutTemplate = true := by
  refine ⟨by simp [runSetup, h], by decide, by decide, by decide⟩

/-- C8 (witness): starting from an entirely empty file state. -/
theorem fresh_layout_created_witness :
    (runSetup InstallResult.ok
        { demoSlice := none, store := none, provider := none,
          layout := none }).2.1.layout = some freshLayoutTemplate :=
  (fresh_layout_created
    { demoSlice := none, store := none, provider := none, layout := none }
    rfl).1

/-! ## Prefix and occurrence lemmas -/

theorem isPre_iff_exists {p s : List Char} :
    isPre p s = true ↔ ∃ t, s = p ++ t := by
  induction p generalizing s with
  | nil =>
    constructor
    · intro _; exact ⟨s, rfl⟩
    · intro _; rfl
  | cons a p ih =>
    cases s with
    | nil =>
      constructor
      · intro h; exact absurd h (by simp [isPre])
      · rintro ⟨t, ht⟩; cases ht
    | cons b s =>
      simp only [isPre, Bool.and_eq_true, beq_iff_eq, ih]
      constructor
      · rintro ⟨rfl, t, rfl⟩; exact ⟨t, rfl⟩
      · rintro ⟨t, ht⟩
        injection ht with h1 h2
        exact ⟨h1.symm, t, h2⟩

theorem isPre_length_le {p s : List Char} (h : isPre p s = true) :
    p.length ≤ s.length := by
  obtain ⟨t, rfl⟩ := isPre_iff_exists.mp h
  simp

theorem isPre_iff_take {p s : List Char} :
    isPre p s = true ↔ s.take p.length = p := by
  constructor
  · intro h
    obtain ⟨t, rfl⟩ := isPre_iff_exists.mp h
    simp [List.take_append_eq_append_take]
  · intro h
    have hs : s = s.take p.length ++ s.drop p.length :=
      (List.take_append_drop _ _).symm
    rw [h] at hs
    exact isPre_iff_exists.mpr ⟨s.drop p.length, hs⟩

theorem isPre_of_isPre_take {p u : List Char} {k : Nat}
    (h : isPre p (u.take k) = true) : isPre p u = true := by
  obtain ⟨t, ht⟩ := isPre_iff_exists.mp h
  refine isPre_iff_exists.mpr ⟨t ++ u.drop k, ?_⟩
  rw [← List.append_assoc, ← ht, List.take_append_drop]

theorem occursAt_le_length {pat s : List Char} {q : Nat} (h : occursAt pat s q)
    (hne : pat ≠ []) : q + pat.length ≤ s.length := by
  have hlen := isPre_length_le h
  rw [List.length_drop] at hlen
  rcases le_or_lt q s.length with hq | hq
  · omega
  · exfalso
    unfold occursAt at h
    rw [List.drop_eq_nil_of_le (Nat.le_of_lt hq)] at h
    cases pat with
    | nil => exact hne rfl
    | cons a p => exact absurd h (by simp [isPre])

/-- Bounded list of the occurrence positions of pat in s. -/
def occursSet (pat s : List Char) : List Nat :=
  (List.range (s.length + 1)).filter (fun i => isPre pat (s.drop i))

theorem countOccur_eq_length_occursSet (pat s : List Char) :
    countOccur pat s = (occursSet pat s).length := rfl

theorem occursAt_mem_occursSet {pat s : List Char} {q : Nat}
    (hne : pat ≠ []) (h : occursAt pat s q) : q ∈ occursSet pat s := by
  have hb := occursAt_le_length h hne
  have hpl : 1 ≤ pat.length := by
    cases pat with
    | nil => exact absurd rfl hne
    | cons a p => simp
  exact List.mem_filter.mpr ⟨List.mem_range.mpr (by omega), h⟩

theorem mem_occursSet_occursAt {pat s : List Char} {q : Nat}
    (h : q ∈ occursSet pat s) : occursAt pat s q :=
  (List.mem_filter.mp h).2

/-! ## Specifications of indexOfSub and lastIndexOfSub -/

theorem indexOfSub_eq_none_iff {pat s : List Char} :
    indexOfSub pat s = none ↔ ∀ i, isPre pat (s.drop i) = false := by
  induction s with
  | nil =>
    by_cases hp : isPre pat [] = true
    · simp only [indexOfSub, if_pos hp]
      constructor
      · intro h; cases h
      · intro h
        have := h 0
        rw [List.drop_nil] at this
        rw [hp] at this; cases this
    · simp only [indexOfSub, if_neg hp]
      refine ⟨fun _ i => ?_, fun _ => by trivial⟩
      rw [List.drop_nil]
      simpa using hp
  | cons b s ih =>
    by_cases hp : isPre pat (b :: s) = true
    · simp only [indexOfSub, if_pos hp]
      constructor
      · intro h; cases h
      · intro h
        have := h 0
        rw [List.drop_zero] at this
        rw [hp] at this; cases this
    · simp only [indexOfSub, if_neg hp, Option.map_eq_none']
      rw [ih]
      constructor
      · intro h i
        cases i with
        | zero => rw [List.drop_zero]; simpa using hp
        | succ j => rw [List.drop_succ_cons]; exact h j
      · intro h j
        have := h (j + 1)
        rwa [List.drop_succ_cons] at this

theorem lastIndexOfSub_eq_none_iff {pat s : List Char} :
    lastIndexOfSub pat s = none ↔ ∀ i, isPre pat (s.drop i) = false := by
  induction s with
  | nil =>
    by_cases hp : isPre pat [] = true
    · simp only [lastIndexOfSub, if_pos hp]
      constructor
      · intro h; cases h
      · intro h
        have := h 0
        rw [List.drop_nil] at this
        rw [hp] at this; cases this
    · simp only [lastIndexOfSub, if_neg hp]
      refine ⟨fun _ i => ?_, fun _ => by trivial⟩
      rw [List.drop_nil]
      simpa using hp
  | cons b s ih =>
    cases hl : lastIndexOfSub pat s with
    | some i =>
      simp only [lastIndexOfSub, hl]
      constructor
      · intro h; cases h
      · intro h
        have hn : lastIndexOfSub pat s = none := by
          rw [ih]
          intro j
          have := h (j + 1)
          rwa [List.drop_succ_cons] at this
        rw [hn] at hl; cases hl
    | none =>
      by_cases hp : isPre pat (b :: s) = true
      · simp only [lastIndexOfSub, hl, if_pos hp]
        constructor
        · intro h; cases h
        · intro h
          have := h 0
          rw [List.drop_zero] at this
          rw [hp] at this; cases this
      · simp only [lastIndexOfSub, hl, if_neg hp]
        refine ⟨fun _ i => ?_, fun _ => by trivial⟩
        cases i with
        | zero => rw [List.drop_zero]; simpa using hp
        | succ j => rw [List.drop_succ_cons]; exact ih.mp hl j

theorem indexOfSub_some_occurs {pat s : List Char} {i : Nat}
    (h : indexOfSub pat s = some i) : occursAt pat s i := by
  induction s generalizing i with
  | nil =>
    unfold indexOfSub at h
    by_cases hp : isPre pat [] = true
    · rw [if_pos hp] at h
      cases h
      unfold occursAt
      rw [List.drop_nil]
      exact hp
    · rw [if_neg hp] at h; cases h
  | cons b s ih =>
    unfold indexOfSub at h
    by_cases hp : isPre pat (b :: s) = true
    · rw [if_pos hp] at h
      cases h
      unfold occursAt
      rw [List.drop_zero]
      exact hp
    · rw [if_neg hp] at h
      cases hr : indexOfSub pat s with
      | none => rw [hr] at h; cases h
      | some j =>
        rw [hr] at h
        simp only [Option.map_some'] at h
        cases h
        unfold occursAt
        rw [List.drop_succ_cons]
        exact ih hr

theorem indexOfSub_some_first {pat s : List Char} {i : Nat}
    (h : indexOfSub pat s = some i) :
    ∀ j, j < i → isPre pat (s.drop j) = false := by
  induction s generalizing i with
  | nil =>
    unfold indexOfSub at h
    by_cases hp : isPre pat [] = true
    · rw [if_pos hp] at h; cases h; intro j hj; omega
    · rw [if_neg hp] at h; cases h
  | cons b s ih =>
    unfold indexOfSub at h
    by_cases hp : isPre pat (b :: s) = true
    · rw [if_pos hp] at h; cases h; intro j hj; omega
    · rw [if_neg hp] at h
      cases hr : indexOfSub pat s with
      | none => rw [hr] at h; cases h
      | some k =>
        rw [hr] at h
        simp only [Option.map_some'] at h
        cases h
        intro j hj
        cases j with
        | zero => rw [List.drop_zero]; simpa using hp
        | succ m => rw [List.drop_succ_cons]; exact ih hr m (by omega)

theorem lastIndexOfSub_some_occurs {pat s : List Char} {e : Nat}
    (h : lastIndexOfSub pat s = some e) : occursAt pat s e := by
  induction s generalizing e with
  | nil =>
    unfold lastIndexOfSub at h
    by_cases hp : isPre pat [] = true
    · rw [if_pos hp] at h
      cases h
      unfold occursAt
      rw [List.drop_nil]
      exact hp
    · rw [if_neg hp] at h; cases h
  | cons b s ih =>
    unfold lastIndexOfSub at h
    cases hr : lastIndexOfSub pat s with
    | some j =>
      rw [hr] at h
      have h' : some (j + 1) = some e := h
      cases h'
      unfold occursAt
      rw [List.drop_succ_cons]
      exact ih hr
    | none =>
      rw [hr] at h
      by_cases hp : isPre pat (b :: s) = true
      · have h' : some 0 = some e := by
          rw [if_pos hp] at h; exact h
        cases h'
        unfold occursAt
        rw [List.drop_zero]
        exact hp
      · have h' : (none : Option Nat) = some e := by
          rw [if_neg hp] at h; exact h
        cases h'

theorem lastIndexOfSub_some_last {pat s : List Char} {e : Nat}
    (hne : pat ≠ []) (h : lastIndexOfSub pat s = some e) :
    ∀ j, occursAt pat s j → j ≤ e := by
  induction s generalizing e with
  | nil =>
    intro j hj
    exfalso
    unfold occursAt at hj
    rw [List.drop_nil] at hj
    cases pat with
    | nil => exact hne rfl
    | cons a p => exact absurd hj (by simp [isPre])
  | cons b s ih =>
    unfold lastIndexOfSub at h
    cases hr : lastIndexOfSub pat s with
    | some j =>
      rw [hr] at h
      have h' : some (j + 1) = some e := h
      cases h'
      intro k hk
      cases k with
      | zero => omega
      | succ m =>
        unfold occursAt at hk
        rw [List.drop_succ_cons] at hk
        have := ih hr m hk
        omega
    | none =>
      rw [hr] at h
      by_cases hp : isPre pat (b :: s) = true
      · have h' : some 0 = some e := by
          rw [if_pos hp] at h; exact h
        cases h'
        intro k hk
        cases k with
        | zero => omega
        | succ m =>
          exfalso
          unfold occursAt at hk
          rw [List.drop_succ_cons] at hk
          have := lastIndexOfSub_eq_none_iff.mp hr m
          rw [this] at hk; cases hk
      · have h' : (none : Option Nat) = some e := by
          rw [if_neg hp] at h; exact h
        cases h'

/-! ## Shift lemmas: searching in a prefixed string -/

theorem indexOfSub_cons (pat : List Char) (b : Char) (s : List Char) :
    indexOfSub pat (b :: s) =
      if isPre pat (b :: s) then some 0 else (indexOfSub pat s).map (· + 1) := rfl

theorem lastIndexOfSub_cons (pat : List Char) (b : Char) (s : List Char) :
    lastIndexOfSub pat (b :: s) =
      match lastIndexOfSub pat s with
      | some i => some (i + 1)
      | none => if isPre pat (b :: s) then some 0 else none := rfl

theorem indexOfSub_append {pat p c : List Char}
    (h : ∀ i, i < p.length → isPre pat ((p ++ c).drop i) = false) :
    indexOfSub pat (p ++ c) = (indexOfSub pat c).map (· + p.length) := by
  induction p with
  | nil =>
    cases hx : indexOfSub pat c <;> simp [hx]
  | cons a p ih =>
    have h0 : isPre pat (a :: (p ++ c)) = false := by
      have := h 0 (by simp)
      simpa using this
    have hrest : ∀ i, i < p.length → isPre pat ((p ++ c).drop i) = false := by
      intro i hi
      have := h (i + 1) (by simp only [List.length_cons]; omega)
      rwa [List.cons_append, List.drop_succ_cons] at this
    rw [List.cons_append, indexOfSub_cons, if_neg (by rw [h0]; simp), ih hrest]
    cases hx : indexOfSub pat c with
    | none => rfl
    | some j =>
      simp only [Option.map_some', List.length_cons]
      exact congrArg some (by omega)

theorem lastIndexOfSub_append {pat p c : List Char}
    (h : ∀ i, i < p.length → isPre pat ((p ++ c).drop i) = false) :
    lastIndexOfSub pat (p ++ c) = (lastIndexOfSub pat c).map (· + p.length) := by
  induction p with
  | nil =>
    cases hx : lastIndexOfSub pat c <;> simp [hx]
  | cons a p ih =>
    have h0 : isPre pat (a :: (p ++ c)) = false := by
      have := h 0 (by simp)
      simpa using this
    have hrest : ∀ i, i < p.length → isPre pat ((p ++ c).drop i) = false := by
      intro i hi
      have := h (i + 1) (by simp only [List.length_cons]; omega)
      rwa [List.cons_append, List.drop_succ_cons] at this
    rw [List.cons_append, lastIndexOfSub_cons, ih hrest]
    cases hx : lastIndexOfSub pat c with
    | none =>
      simp only [Option.map_none']
      rw [if_neg (by rw [h0]; simp)]
    | some j =>
      simp only [Option.map_some', List.length_cons]
      exact congrArg some (by omega)

/-- Whether, for some continuation, an occurrence of pat in the prefixed
string could start strictly inside the prefix p. -/
def canCross (pat p : List Char) : Bool :=
  (List.range p.length).any (fun i =>
    if pat.length ≤ p.length - i then isPre pat (p.drop i)
    else isPre (p.drop i) pat)

theorem canCross_false {pat p : List Char} (h : canCross pat p = false)
    (c : List Char) : ∀ i, i < p.length → isPre pat ((p ++ c).drop i) = false := by
  intro i hi
  have hcond := List.any_eq_false.mp h i (List.mem_range.mpr hi)
  have hdrop : (p ++ c).drop i = p.drop i ++ c := by
    rw [List.drop_append_eq_append_drop, Nat.sub_eq_zero_of_le (Nat.le_of_lt hi),
      List.drop_zero]
  rw [hdrop]
  set a := p.drop i with ha
  have hal : a.length = p.length - i := by rw [ha, List.length_drop]
  by_contra hc
  have hc' : isPre pat (a ++ c) = true := by
    cases hx : isPre pat (a ++ c) with
    | true => rfl
    | false => exact absurd hx hc
  by_cases hle : pat.length ≤ p.length - i
  · rw [if_pos hle] at hcond
    have htake := isPre_iff_take.mp hc'
    rw [List.take_append_eq_append_take, Nat.sub_eq_zero_of_le (by omega),
      List.take_zero, List.append_nil] at htake
    exact hcond (isPre_iff_take.mpr htake)
  · rw [if_neg hle] at hcond
    have htake := isPre_iff_take.mp hc'
    have h1 : pat.take a.length = a := by
      have h2 := congrArg (List.take a.length) htake
      rw [List.take_take, Nat.min_eq_left (by omega),
        List.take_append_eq_append_take, Nat.sub_self, List.take_zero,
        List.append_nil] at h2
      rw [← h2, List.take_length]
    exact hcond (isPre_iff_take.mpr h1)

/-! ## containsSub and infix monotonicity -/

theorem containsSub_eq_false_iff {pat s : List Char} :
    containsSub pat s = false ↔ ∀ i, isPre pat (s.drop i) = false := by
  unfold containsSub
  cases hx : indexOfSub pat s with
  | none =>
    simp only [Option.isSome_none]
    exact ⟨fun _ => indexOfSub_eq_none_iff.mp hx, fun _ => by trivial⟩
  | some i =>
    simp only [Option.isSome_some]
    constructor
    · intro h; cases h
    · intro h
      exfalso
      have ho := indexOfSub_some_occurs hx
      unfold occursAt at ho
      rw [h i] at ho; cases ho

theorem isPre_drop_append_mid {pat u t v : List Char} {i : Nat}
    (h : isPre pat (t.drop i) = true) :
    isPre pat ((u ++ (t ++ v)).drop (u.length + i)) = true := by
  have harith : u.length + i - u.length = i := by omega
  rw [List.drop_append_eq_append_drop, List.drop_eq_nil_of_le (by omega), harith,
    List.nil_append, List.drop_append_eq_append_drop]
  obtain ⟨w, hw⟩ := isPre_iff_exists.mp h
  rw [hw]
  exact isPre_iff_exists.mpr ⟨w ++ v.drop (i - t.length), by rw [List.append_assoc]⟩

theorem containsSub_false_mid {pat u t v : List Char}
    (h : containsSub pat (u ++ (t ++ v)) = false) :
    ∀ j, isPre pat (t.drop j) = false := by
  intro j
  cases hx : isPre pat (t.drop j) with
  | false => rfl
  | true =>
    exfalso
    have hmid := isPre_drop_append_mid (u := u) (v := v) hx
    rw [containsSub_eq_false_iff.mp h (u.length + j)] at hmid
    cases hmid

theorem no_occurs_take {pat c : List Char} (h : containsSub pat c = false)
    (m : Nat) : ∀ j, isPre pat ((c.take m).drop j) = false := by
  apply containsSub_false_mid (u := []) (v := c.drop m)
  simpa [List.take_append_drop] using h

theorem no_occurs_drop_take {pat c : List Char} (h : containsSub pat c = false)
    (a m : Nat) : ∀ j, isPre pat (((c.drop a).take m).drop j) = false := by
  apply containsSub_false_mid (u := c.take a) (v := (c.drop a).drop m)
  simpa [List.take_append_drop] using h

/-! ## Trim structure lemmas -/

theorem trimLeft_suffix (s : List Char) : ∃ u, s = u ++ trimLeft s := by
  unfold trimLeft
  induction s with
  | nil => exact ⟨[], rfl⟩
  | cons a s ih =>
    rw [List.dropWhile_cons]
    by_cases hws : isWS a = true
    · rw [if_pos hws]
      obtain ⟨u, hu⟩ := ih
      exact ⟨a :: u, by rw [List.cons_append, ← hu]⟩
    · rw [if_neg hws]
      exact ⟨[], rfl⟩

theorem trimRight_prefix (s : List Char) : ∃ v, s = trimRight s ++ v := by
  obtain ⟨u, hu⟩ := trimLeft_suffix s.reverse
  refine ⟨u.reverse, ?_⟩
  have h2 := congrArg List.reverse hu
  rw [List.reverse_reverse, List.reverse_append] at h2
  exact h2

theorem jsTrim_mid (s : List Char) : ∃ u v, s = u ++ (jsTrim s ++ v) := by
  obtain ⟨u, hu⟩ := trimLeft_suffix s
  obtain ⟨v, hv⟩ := trimRight_prefix (trimLeft s)
  refine ⟨u, v, ?_⟩
  have h1 : jsTrim s = trimRight (trimLeft s) := rfl
  rw [h1]
  conv_lhs => rw [hu, hv]

theorem no_occurs_trimRight_drop {pat c : List Char}
    (h : containsSub pat c = false) (a : Nat) :
    ∀ j, isPre pat ((trimRight (c.drop a)).drop j) = false := by
  intro j
  cases hx : isPre pat ((trimRight (c.drop a)).drop j) with
  | false => rfl
  | true =>
    exfalso
    obtain ⟨v, hv⟩ := trimRight_prefix (c.drop a)
    have hmid := isPre_drop_append_mid (u := c.take a) (v := v) hx
    have hc : c.take a ++ (trimRight (c.drop a) ++ v) = c := by
      rw [← hv, List.take_append_drop]
    rw [hc] at hmid
    rw [containsSub_eq_false_iff.mp h _] at hmid
    cases hmid

theorem no_occurs_jsTrim_drop_take {pat c : List Char}
    (h : containsSub pat c = false) (a m : Nat) :
    ∀ j, isPre pat ((jsTrim ((c.drop a).take m)).drop j) = false := by
  intro j
  cases hx : isPre pat ((jsTrim ((c.drop a).take m)).drop j) with
  | false => rfl
  | true =>
    exfalso
    obtain ⟨u, v, huv⟩ := jsTrim_mid ((c.drop a).take m)
    have h1 := isPre_drop_append_mid (u := u) (v := v) hx
    rw [← huv] at h1
    rw [no_occurs_drop_take h a m (u.length + j)] at h1
    cases h1

/-! ## Head and last characters of trimmed strings -/

theorem head?_dropWhile_not (p : Char → Bool) (s : List Char) :
    ∀ ch, (s.dropWhile p).head? = some ch → p ch = false := by
  induction s with
  | nil => intro ch h; cases h
  | cons a s ih =>
    rw [List.dropWhile_cons]
    by_cases hp : p a = true
    · rw [if_pos hp]; exact ih
    · rw [if_neg hp]
      intro ch h
      have : a = ch := by
        have h' : some a = some ch := h
        cases h'; rfl
      rw [← this]
      simpa using hp

theorem trimLeft_head_not_ws {s : List Char} :
    ∀ ch, (trimLeft s).head? = some ch → isWS ch = false :=
  head?_dropWhile_not isWS s

theorem trimRight_getLast_not_ws {s : List Char} :
    ∀ ch, (trimRight s).getLast? = some ch → isWS ch = false := by
  intro ch h
  unfold trimRight at h
  rw [List.getLast?_reverse] at h
  exact head?_dropWhile_not isWS s.reverse ch h

theorem trimLeft_eq_self_of_head {s : List Char}
    (h : ∀ ch, s.head? = some ch → isWS ch = false) : trimLeft s = s := by
  cases s with
  | nil => rfl
  | cons a s =>
    unfold trimLeft
    rw [List.dropWhile_cons, if_neg (by rw [h a rfl]; simp)]

theorem trimLeft_idem (s : List Char) : trimLeft (trimLeft s) = trimLeft s :=
  trimLeft_eq_self_of_head (fun ch h => trimLeft_head_not_ws ch h)

theorem trimRight_idem (s : List Char) :
    trimRight (trimRight s) = trimRight s := by
  show ((((s.reverse.dropWhile isWS).reverse).reverse).dropWhile isWS).reverse =
    (s.reverse.dropWhile isWS).reverse
  rw [List.reverse_reverse]
  congr 1
  exact trimLeft_idem s.reverse

theorem trimRight_head_not_ws_of_trimLeft {s : List Char} :
    ∀ ch, (trimRight (trimLeft s)).head? = some ch → isWS ch = false := by
  intro ch h
  obtain ⟨v, hv⟩ := trimRight_prefix (trimLeft s)
  have hh : (trimLeft s).head? = some ch := by
    rw [hv, List.head?_append, h]
    rfl
  exact trimLeft_head_not_ws ch hh

theorem jsTrim_head_not_ws {s : List Char} :
    ∀ ch, (jsTrim s).head? = some ch → isWS ch = false :=
  trimRight_head_not_ws_of_trimLeft

theorem jsTrim_getLast_not_ws {s : List Char} :
    ∀ ch, (jsTrim s).getLast? = some ch → isWS ch = false :=
  trimRight_getLast_not_ws

theorem jsTrim_idem (s : List Char) : jsTrim (jsTrim s) = jsTrim s := by
  show trimRight (trimLeft (trimRight (trimLeft s))) = trimRight (trimLeft s)
  rw [trimLeft_eq_self_of_head trimRight_head_not_ws_of_trimLeft, trimRight_idem]

theorem trimRight_ne_nil_of_mem {B : List Char} {b : Char}
    (hb : b ∈ B) (hws : isWS b = false) : trimRight B ≠ [] := by
  intro h
  unfold trimRight at h
  have hnil : B.reverse.dropWhile isWS = [] := by
    have h2 := congrArg List.reverse h
    rwa [List.reverse_reverse, List.reverse_nil] at h2
  have hall := List.dropWhile_eq_nil_iff.mp hnil
  have hbb := hall b (by simpa using hb)
  rw [hws] at hbb; cases hbb

theorem trimRight_append {A B : List Char} (h : trimRight B ≠ []) :
    trimRight (A ++ B) = A ++ trimRight B := by
  show ((A ++ B).reverse.dropWhile isWS).reverse = A ++ (B.reverse.dropWhile isWS).reverse
  rw [List.reverse_append, List.dropWhile_append]
  have hne : (B.reverse.dropWhile isWS).isEmpty = false := by
    cases hx : B.reverse.dropWhile isWS with
    | nil =>
      exfalso
      apply h
      show (B.reverse.dropWhile isWS).reverse = []
      rw [hx]; rfl
    | cons x xs => rfl
  rw [hne]
  simp only [Bool.false_eq_true, if_false]
  rw [List.reverse_append, List.reverse_reverse]

/-! ## The import-prepend step -/

/-- The text placed in front of the layout content when the import is
missing: the import statement followed by a blank line. -/
def prependSeg : List Char := importStatement ++ nl2

/-- Leading text of the import statement, up to the wrapper name. -/
def importPre9 : List Char := "import \x7b ".data

/-- Trailing text of the import statement, after the wrapper name. -/
def importSuf : List Char := " \x7d from \x27./redux/provider\x27;".data

theorem import_decomp : importStatement = importPre9 ++ (rpName ++ importSuf) := by
  decide

theorem canCross_retOpen_prepend : canCross retOpen prependSeg = false := by
  decide

theorem canCross_closePat_prepend : canCross closePat prependSeg = false := by
  decide

theorem occursAt_sub {pat sub u v s : List Char} {q : Nat}
    (hdec : pat = u ++ (sub ++ v)) (h : isPre pat (s.drop q) = true) :
    isPre sub (s.drop (q + u.length)) = true := by
  obtain ⟨t, ht⟩ := isPre_iff_exists.mp h
  have hdd : s.drop (q + u.length) = (s.drop q).drop u.length := by
    rw [List.drop_drop]
  rw [hdd, ht, hdec, List.append_assoc, List.drop_append_eq_append_drop,
    List.drop_eq_nil_of_le (le_refl _), Nat.sub_self, List.drop_zero,
    List.nil_append, List.append_assoc]
  exact isPre_iff_exists.mpr ⟨v ++ t, rfl⟩

theorem no_import_of_no_rp {c : List Char} (h : containsSub rpName c = false) :
    containsSub importStatement c = false := by
  rw [containsSub_eq_false_iff] at h ⊢
  intro i
  cases hx : isPre importStatement (c.drop i) with
  | false => rfl
  | true =>
    exfalso
    have hsub := occursAt_sub import_decomp hx
    rw [h (i + importPre9.length)] at hsub
    cases hsub

theorem patchExisting_eq_core {c : List Char} (h : containsSub rpName c = false) :
    patchExisting c = patchCore (prependSeg ++ c) := by
  unfold patchExisting
  rw [h]
  simp only [Bool.false_eq_true, if_false]
  rw [no_import_of_no_rp h]
  simp only [Bool.false_eq_true, if_false]
  show patchCore (importStatement ++ (nl2 ++ c)) = _
  rw [← List.append_assoc]
  rfl

/-! ## Inversion of a successful patch -/

theorem patchExisting_some_elim {c out : List Char}
    (h : (patchExisting c).1 = some out) :
    containsSub rpName c = false ∧
    (patchCore (prependSeg ++ c)).1 = some out := by
  cases hrp : containsSub rpName c with
  | true =>
    exfalso
    unfold patchExisting at h
    rw [hrp] at h
    simp at h
  | false =>
    rw [patchExisting_eq_core hrp] at h
    exact ⟨rfl, h⟩



theorem patchCore_some_elim {s out : List Char}
    (h : (patchCore s).1 = some out) :
    ∃ ri e, indexOfSub retOpen s = some ri ∧
      lastIndexOfSub closePat s = some e ∧
      ri + retOpen.length < e ∧
      out = jsTrim (s.take (ri + retOpen.length) ++
        ((wrapPre ++
          (jsTrim ((s.drop (ri + retOpen.length)).take
            (e - (ri + retOpen.length))) ++ wrapPost)) ++ s.drop e)) := by
  unfold patchCore at h
  cases hri : indexOfSub retOpen s with
  | none => rw [hri] at h; cases h
  | some ri =>
    rw [hri] at h
    cases he : lastIndexOfSub closePat s with
    | none => rw [he] at h; cases h
    | some e =>
      rw [he] at h
      by_cases hlt : ri + retOpen.length < e
      · refine ⟨ri, e, rfl, rfl, hlt, ?_⟩
        simp only [if_pos hlt] at h
        have h' : some (jsTrim (s.take (ri + retOpen.length) ++
            ((wrapPre ++ (jsTrim ((s.drop (ri + retOpen.length)).take
              (e - (ri + retOpen.length))) ++ wrapPost)) ++ s.drop e))) =
            some out := by
          rw [← h]
          simp [List.append_assoc]
        exact (Option.some_inj.mp h').symm
      · simp only [if_neg hlt] at h
        cases h

/-! ## Full evaluation of a successful patch behind the prepend -/

theorem closePat_mem_drop {c : List Char} {e : Nat}
    (h : occursAt closePat c e) : ')' ∈ c.drop e := by
  obtain ⟨w, hw⟩ := isPre_iff_exists.mp h
  rw [hw]
  exact List.mem_append_left _ (by decide)

theorem jsTrim_import_front {t1 W d2 : List Char}
    (hne : trimRight d2 ≠ []) :
    jsTrim ((prependSeg ++ t1) ++ (W ++ d2)) =
      prependSeg ++ (t1 ++ (W ++ trimRight d2)) := by
  have hhead : ∀ ch, ((prependSeg ++ t1) ++ (W ++ d2)).head? = some ch →
      isWS ch = false := by
    intro ch hch
    rw [List.head?_append, List.head?_append] at hch
    have hp : prependSeg.head? = some 'i' := by decide
    rw [hp] at hch
    have hch' : some 'i' = some ch := by simpa using hch
    cases hch'
    decide
  show trimRight (trimLeft _) = _
  rw [trimLeft_eq_self_of_head hhead]
  have hre : (prependSeg ++ t1) ++ (W ++ d2) = ((prependSeg ++ t1) ++ W) ++ d2 :=
    (List.append_assoc _ _ _).symm
  rw [hre, trimRight_append hne]
  simp [List.append_assoc]

theorem patchCore_prepend_success {c : List Char} {i e : Nat}
    (hic : indexOfSub retOpen c = some i)
    (hec : lastIndexOfSub closePat c = some e)
    (hlt : i + retOpen.length < e) :
    (patchCore (prependSeg ++ c)).1 =
      some (prependSeg ++ (c.take (i + retOpen.length) ++
        ((wrapPre ++ (jsTrim ((c.drop (i + retOpen.length)).take
          (e - (i + retOpen.length))) ++ wrapPost)) ++ trimRight (c.drop e)))) := by
  have hshift1 := indexOfSub_append (canCross_false canCross_retOpen_prepend c)
  have hshift2 := lastIndexOfSub_append (canCross_false canCross_closePat_prepend c)
  rw [hic] at hshift1
  rw [hec] at hshift2
  simp only [Option.map_some'] at hshift1 hshift2
  have htake : (prependSeg ++ c).take (i + prependSeg.length + retOpen.length) =
      prependSeg ++ c.take (i + retOpen.length) := by
    rw [List.take_append_eq_append_take, List.take_of_length_le (by omega)]
    have harr : i + prependSeg.length + retOpen.length - prependSeg.length =
        i + retOpen.length := by omega
    rw [harr]
  have hdrop1 : (prependSeg ++ c).drop (i + prependSeg.length + retOpen.length) =
      c.drop (i + retOpen.length) := by
    rw [List.drop_append_eq_append_drop, List.drop_of_length_le (by omega),
      List.nil_append]
    have harr : i + prependSeg.length + retOpen.length - prependSeg.length =
        i + retOpen.length := by omega
    rw [harr]
  have hdrop2 : (prependSeg ++ c).drop (e + prependSeg.length) = c.drop e := by
    rw [List.drop_append_eq_append_drop, List.drop_of_length_le (by omega),
      List.nil_append]
    have harr : e + prependSeg.length - prependSeg.length = e := by omega
    rw [harr]
  have harith : e + prependSeg.length - (i + prependSeg.length + retOpen.length) =
      e - (i + retOpen.length) := by omega
  have hne : trimRight (c.drop e) ≠ [] :=
    trimRight_ne_nil_of_mem (closePat_mem_drop (lastIndexOfSub_some_occurs hec))
      (by decide)
  have hstep : (patchCore (prependSeg ++ c)).1 =
      some (jsTrim ((prependSeg ++ c).take (i + prependSeg.length + retOpen.length) ++
        ((wrapPre ++ (jsTrim (((prependSeg ++ c).drop
            (i + prependSeg.length + retOpen.length)).take
          (e + prependSeg.length - (i + prependSeg.length + retOpen.length))) ++
          wrapPost)) ++ (prependSeg ++ c).drop (e + prependSeg.length)))) := by
    unfold patchCore
    simp only [hshift1, hshift2]
    rw [if_pos (by omega : i + prependSeg.length + retOpen.length <
      e + prependSeg.length)]
    simp [List.append_assoc]
  rw [hstep, htake, hdrop1, hdrop2, harith]
  congr 1
  exact jsTrim_import_front hne

/-! ## C5: the spliced region is lexical (first open, last close) -/

/-- C5: for any content entering the patch branch on which the splice
succeeds, the region spliced out is bounded by the first occurrence of
the return-open pattern in the whole content and the last occurrence of
the close pattern in the whole content — first and last in the lexical
sense, whatever else the content contains. -/
theorem splice_region_lexical (s : List Char) (ri e : Nat)
    (h1 : indexOfSub retOpen s = some ri)
    (h2 : lastIndexOfSub closePat s = some e)
    (h3 : ri + retOpen.length < e) :
    occursAt retOpen s ri ∧ (∀ j, j < ri → ¬ occursAt retOpen s j) ∧
    occursAt closePat s e ∧ (∀ j, occursAt closePat s j → j ≤ e) ∧
    (patchCore s).1 = some (jsTrim (s.take (ri + retOpen.length) ++
      ((wrapPre ++ (jsTrim ((s.drop (ri + retOpen.length)).take
        (e - (ri + retOpen.length))) ++ wrapPost)) ++ s.drop e))) := by
  refine ⟨indexOfSub_some_occurs h1, ?_, lastIndexOfSub_some_occurs h2,
    lastIndexOfSub_some_last (by decide) h2, ?_⟩
  · intro j hj hocc
    unfold occursAt at hocc
    rw [indexOfSub_some_first h1 j hj] at hocc
    cases hocc
  · unfold patchCore
    simp only [h1, h2]
    rw [if_pos h3]
    simp [List.append_assoc]

/-- Content with two return blocks, for exercising the lexical splice. -/
def twoRet : List Char :=
  "function A() \x7b return ( 1 ); \x7d function B() \x7b return ( 2 ); \x7d".data

/-- The mis-spliced result the tool produces on twoRet: everything from
just after the first return-open to the last close-pattern is treated as
one return body. -/
def twoRetPatched : List Char :=
  "function A() \x7b return (\n          <ReduxProvider>\n            1 ); \x7d function B() \x7b return ( 2\n          </ReduxProvider>\n        ); \x7d".data

/-- C5 (witness): on twoRet the splice anchors on the first open (position
15) and the last close (position 57). -/
theorem splice_region_lexical_witness :
    occursAt retOpen twoRet 15 ∧ (patchCore twoRet).1 = some twoRetPatched := by
  obtain ⟨ha, _, _, _, hb⟩ :=
    splice_region_lexical twoRet 15 57 (by decide) (by decide) (by decide)
  exact ⟨ha, hb.trans (by decide)⟩

/-! ## C3: pattern not found, warn and leave untouched -/

/-- The failure condition of the patch pattern on a content string: no
return-open at all, or the last close-pattern does not lie strictly after
the position just past the first return-open. -/
def patchPatternMissing (c : List Char) : Prop :=
  indexOfSub retOpen c = none ∨
  ∃ i, indexOfSub retOpen c = some i ∧
    (lastIndexOfSub closePat c = none ∨
     ∃ e, lastIndexOfSub closePat c = some e ∧ e ≤ i + retOpen.length)

/-- C3: an existing layout without the wrapper name on which the patch
pattern is missing is left byte-identical on disk, a warning is printed,
and the run still ends with the success message and exit code 0. -/
theorem layout_pattern_missing_untouched (fs : FState) (c : List Char)
    (hl : fs.layout = some c) (hrp : containsSub rpName c = false)
    (hmiss : patchPatternMissing c) :
    (runSetup InstallResult.ok fs).2.1.layout = some c ∧
    (runSetup InstallResult.ok fs).1 = 0 ∧
    ((runSetup InstallResult.ok fs).2.2 =
        [LogMsg.installing, LogMsg.warnNoReturn, LogMsg.complete] ∨
     (runSetup InstallResult.ok fs).2.2 =
        [LogMsg.installing, LogMsg.warnNoValidReturn, LogMsg.complete]) := by
  have hcore : patchExisting c = patchCore (prependSeg ++ c) :=
    patchExisting_eq_core hrp
  have hshift1 := indexOfSub_append (canCross_false canCross_retOpen_prepend c)
  have hshift2 := lastIndexOfSub_append (canCross_false canCross_closePat_prepend c)
  have hres : patchCore (prependSeg ++ c) = (none, LogMsg.warnNoReturn) ∨
      patchCore (prependSeg ++ c) = (none, LogMsg.warnNoValidReturn) := by
    rcases hmiss with hnone | ⟨i, hi, hrest⟩
    · left
      rw [hnone] at hshift1
      unfold patchCore
      simp only [hshift1, Option.map_none']
    · rw [hi] at hshift1
      simp only [Option.map_some'] at hshift1
      rcases hrest with hcnone | ⟨e, he, hle⟩
      · right
        rw [hcnone] at hshift2
        unfold patchCore
        simp only [hshift1, hshift2, Option.map_none']
      · right
        rw [he] at hshift2
        simp only [Option.map_some'] at hshift2
        unfold patchCore
        simp only [hshift1, hshift2]
        rw [if_neg (by omega : ¬ i + prependSeg.length + retOpen.length <
          e + prependSeg.length)]
  rcases hres with h | h <;> simp [runSetup, hl, hcore, h]

/-- Layout content with no return-open pattern at all. -/
def noRetLayout : List Char :=
  "export default function RootLayout(\x7b children \x7d) \x7b\n  <div>hi</div>\n\x7d\n".data

/-- C3 (witness): on a concrete layout without the pattern, the file is
left unchanged and the run succeeds. -/
theorem layout_pattern_missing_untouched_witness :
    (runSetup InstallResult.ok
        { demoSlice := none, store := none, provider := none,
          layout := some noRetLayout }).2.1.layout = some noRetLayout ∧
    (runSetup InstallResult.ok
        { demoSlice := none, store := none, provider := none,
          layout := some noRetLayout }).1 = 0 := by
  obtain ⟨h1, h2, _⟩ := layout_pattern_missing_untouched
    { demoSlice := none, store := none, provider := none,
      layout := some noRetLayout } noRetLayout rfl (by decide)
    (Or.inl (by decide))
  exact ⟨h1, h2⟩

/-! ## C9: the import prepend can never be skipped on a real patch -/

/-- C9: when the patcher rewrites an existing layout whose content lacks
the wrapper name, the inner guard that would skip the import prepend can
never fire — the content cannot already contain the exact import
statement, because that statement contains the wrapper name — and the
content written back always begins with the import statement. -/
theorem import_always_prepended (c out : List Char)
    (hrp : containsSub rpName c = false)
    (h : (patchExisting c).1 = some out) :
    containsSub importStatement c = false ∧
    isPre importStatement out = true := by
  refine ⟨no_import_of_no_rp hrp, ?_⟩
  rw [patchExisting_eq_core hrp] at h
  obtain ⟨ri, e, hri, he, hlt, _⟩ := patchCore_some_elim h
  have hshift1 := indexOfSub_append (canCross_false canCross_retOpen_prepend c)
  have hshift2 := lastIndexOfSub_append (canCross_false canCross_closePat_prepend c)
  rw [hshift1] at hri
  rw [hshift2] at he
  cases hic : indexOfSub retOpen c with
  | none => rw [hic] at hri; cases hri
  | some i =>
    rw [hic] at hri
    simp only [Option.map_some'] at hri
    cases hec : lastIndexOfSub closePat c with
    | none => rw [hec] at he; cases he
    | some e0 =>
      rw [hec] at he
      simp only [Option.map_some'] at he
      have hri' : ri = i + prependSeg.length := by
        injection hri with h'; omega
      have he' : e = e0 + prependSeg.length := by
        injection he with h'; omega
      have hlt0 : i + retOpen.length < e0 := by
        rw [hri', he'] at hlt; omega
      have hps := patchCore_prepend_success hic hec hlt0
      rw [h] at hps
      have hout := Option.some_inj.mp hps
      rw [hout]
      refine isPre_iff_exists.mpr ⟨nl2 ++ (c.take (i + retOpen.length) ++
        ((wrapPre ++ (jsTrim ((c.drop (i + retOpen.length)).take
          (e0 - (i + retOpen.length))) ++ wrapPost)) ++
          trimRight (c.drop e0))), ?_⟩
      show (importStatement ++ nl2) ++ _ = _
      rw [List.append_assoc]

/-- A layout whose original content ends with a newline. -/
def tailNlLayout : List Char :=
  "export default function L() \x7b\n  return (\n    <p>x</p>\n  );\n\x7d\n".data

/-- The content the patcher writes back for tailNlLayout. -/
def tailNlPatched : List Char :=
  "import \x7b ReduxProvider \x7d from \x27./redux/provider\x27;\n\nexport default function L() \x7b\n  return (\n          <ReduxProvider>\n            <p>x</p>\n          </ReduxProvider>\n        );\n\x7d".data

/-- C9 (witness): a concrete patch whose output starts with the import. -/
theorem import_always_prepended_witness :
    containsSub importStatement tailNlLayout = false ∧
    isPre importStatement tailNlPatched = true :=
  import_always_prepended tailNlLayout tailNlPatched (by decide) (by decide)

/-! ## C10: the written content is trimmed at both ends -/

/-- C10: whatever content the patcher writes back for an existing layout
is a fixed point of trimming — its first and last characters are never
whitespace — so an original trailing newline (or any edge whitespace) is
not preserved, even though it lies outside the spliced return-block
region. -/
theorem patched_layout_trimmed (fs : FState) (c out : List Char)
    (hl : fs.layout = some c) (h : (patchExisting c).1 = some out) :
    (runSetup InstallResult.ok fs).2.1.layout = some out ∧
    jsTrim out = out ∧
    (∀ ch, out.head? = some ch → isWS ch = false) ∧
    (∀ ch, out.getLast? = some ch → isWS ch = false) := by
  constructor
  · cases hpe : patchExisting c with
    | mk w m =>
      rw [hpe] at h
      simp only at h
      subst h
      simp [runSetup, hl, hpe]
  · obtain ⟨hrp, hcore⟩ := patchExisting_some_elim h
    obtain ⟨ri, e, _, _, _, hout⟩ := patchCore_some_elim hcore
    refine ⟨?_, ?_, ?_⟩
    · rw [hout]; exact jsTrim_idem _
    · intro ch hch
      rw [hout] at hch
      exact jsTrim_head_not_ws ch hch
    · intro ch hch
      rw [hout] at hch
      exact jsTrim_getLast_not_ws ch hch

/-- C10 (witness): the layout content ends with a newline before the run
and the written content does not. -/
theorem patched_layout_trimmed_witness :
    tailNlLayout.getLast? = some '\n' ∧
    jsTrim tailNlPatched = tailNlPatched ∧
    tailNlPatched.getLast? = some '\x7d' := by
  refine ⟨by decide, ?_, by decide⟩
  exact (patched_layout_trimmed
    { demoSlice := none, store := none, provider := none,
      layout := some tailNlLayout } tailNlLayout tailNlPatched rfl
    (by decide)).2.1

/-! ## Locating occurrences across concatenations -/

theorem occursAt_getElem {pat s : List Char} {q j : Nat} (h : occursAt pat s q)
    (hj : j < pat.length) : s[q + j]? = pat[j]? := by
  obtain ⟨t, ht⟩ := isPre_iff_exists.mp h
  have h1 : (s.drop q)[j]? = s[q + j]? := List.getElem?_drop s q j
  rw [← h1, ht, List.getElem?_append_left hj]

theorem occursAt_mem_char {pat s : List Char} {q j : Nat} (h : occursAt pat s q)
    (hj : j < pat.length) {b : Char} (hb : s[q + j]? = some b) : b ∈ pat := by
  have h2 := occursAt_getElem h hj
  rw [hb] at h2
  exact List.getElem?_mem h2.symm

theorem occursAt_append_split_left {pat A B : List Char} {q : Nat}
    (h : occursAt pat (A ++ B) q) {b : Char} (hb : A.getLast? = some b)
    (hm : b ∉ pat) :
    (q + pat.length ≤ A.length ∧ occursAt pat A q) ∨
    (A.length ≤ q ∧ occursAt pat B (q - A.length)) := by
  rcases le_or_lt (q + pat.length) A.length with hle | hgt
  · left
    refine ⟨hle, ?_⟩
    unfold occursAt at h ⊢
    rw [List.drop_append_eq_append_drop, Nat.sub_eq_zero_of_le (by omega),
      List.drop_zero] at h
    have htk := isPre_iff_take.mp h
    rw [List.take_append_eq_append_take,
      Nat.sub_eq_zero_of_le (by rw [List.length_drop]; omega),
      List.take_zero, List.append_nil] at htk
    exact isPre_iff_take.mpr htk
  · rcases le_or_lt A.length q with hge | hlt2
    · right
      refine ⟨hge, ?_⟩
      unfold occursAt at h ⊢
      rw [List.drop_append_eq_append_drop, List.drop_of_length_le hge,
        List.nil_append] at h
      exact h
    · exfalso
      have hj : A.length - 1 - q < pat.length := by omega
      have hchar : (A ++ B)[q + (A.length - 1 - q)]? = some b := by
        have harith : q + (A.length - 1 - q) = A.length - 1 := by omega
        rw [harith, List.getElem?_append_left (by omega),
          ← List.getLast?_eq_getElem?]
        exact hb
      exact hm (occursAt_mem_char h hj hchar)

theorem occursAt_append_split_right {pat A B : List Char} {q : Nat}
    (h : occursAt pat (A ++ B) q) {b : Char} (hb : B.head? = some b)
    (hm : b ∉ pat) :
    (q + pat.length ≤ A.length ∧ occursAt pat A q) ∨
    (A.length ≤ q ∧ occursAt pat B (q - A.length)) := by
  rcases le_or_lt (q + pat.length) A.length with hle | hgt
  · left
    refine ⟨hle, ?_⟩
    unfold occursAt at h ⊢
    rw [List.drop_append_eq_append_drop, Nat.sub_eq_zero_of_le (by omega),
      List.drop_zero] at h
    have htk := isPre_iff_take.mp h
    rw [List.take_append_eq_append_take,
      Nat.sub_eq_zero_of_le (by rw [List.length_drop]; omega),
      List.take_zero, List.append_nil] at htk
    exact isPre_iff_take.mpr htk
  · rcases le_or_lt A.length q with hge | hlt2
    · right
      refine ⟨hge, ?_⟩
      unfold occursAt at h ⊢
      rw [List.drop_append_eq_append_drop, List.drop_of_length_le hge,
        List.nil_append] at h
      exact h
    · exfalso
      have hj : A.length - q < pat.length := by omega
      have hchar : (A ++ B)[q + (A.length - q)]? = some b := by
        have harith : q + (A.length - q) = A.length := by omega
        rw [harith, List.getElem?_append_right (le_refl _), Nat.sub_self,
          ← List.head?_eq_getElem?]
        exact hb
      exact hm (occursAt_mem_char h hj hchar)

theorem getElem?_append_offset (A B : List Char) (j : Nat) :
    (A ++ B)[A.length + j]? = B[j]? := by
  rw [List.getElem?_append_right (by omega)]
  congr 1
  omega

theorem take_at_retOpen {c : List Char} {i : Nat} (h : occursAt retOpen c i) :
    c.take (i + retOpen.length) = c.take i ++ retOpen := by
  have hb := occursAt_le_length h (by decide)
  obtain ⟨w, hw⟩ := isPre_iff_exists.mp h
  have hc : c = c.take i ++ (retOpen ++ w) := by
    rw [← hw, List.take_append_drop]
  have hlen : (c.take i).length = i := by
    rw [List.length_take]
    omega
  conv_lhs => rw [hc]
  rw [List.take_append_eq_append_take, List.take_of_length_le (by omega), hlen]
  have harith : i + retOpen.length - i = retOpen.length := by omega
  rw [harith, List.take_append_eq_append_take, List.take_length, Nat.sub_self,
    List.take_zero, List.append_nil]

/-! ## Occurrences of the wrapper name in the fixed segments -/

theorem occursSet_rp_prependSeg : occursSet rpName prependSeg = [9] := by decide

theorem occursSet_rp_wrapPre : occursSet rpName wrapPre = [12] := by decide

theorem occursSet_rp_wrapPost : occursSet rpName wrapPost = [13] := by decide

/-- Every occurrence of the wrapper name in the patched layout lies at one
of three places: inside the prepended import, inside the wrapper opening
tag, or inside the wrapper closing tag. -/
theorem rp_positions {t1 inner t2 : List Char} {r : Nat}
    (hno1 : ∀ j, isPre rpName (t1.drop j) = false)
    (hno2 : ∀ j, isPre rpName (inner.drop j) = false)
    (hno3 : ∀ j, isPre rpName (t2.drop j) = false)
    (ht1last : t1.getLast? = some '(')
    (h : occursAt rpName
      (prependSeg ++ (t1 ++ (wrapPre ++ (inner ++ (wrapPost ++ t2))))) r) :
    r = 9 ∨ r = prependSeg.length + t1.length + 12 ∨
    r = prependSeg.length + t1.length + wrapPre.length + inner.length + 13 := by
  rcases occursAt_append_split_left h
      (show prependSeg.getLast? = some '\n' by decide) (by decide) with
    ⟨_, h1⟩ | ⟨hq1, h1⟩
  · left
    have := occursAt_mem_occursSet (by decide) h1
    rw [occursSet_rp_prependSeg] at this
    simpa using this
  · rcases occursAt_append_split_left h1 ht1last (by decide) with
      ⟨_, h2⟩ | ⟨hq2, h2⟩
    · exfalso
      unfold occursAt at h2
      rw [hno1] at h2
      cases h2
    · rcases occursAt_append_split_left h2
        (show wrapPre.getLast? = some ' ' by decide) (by decide) with
      ⟨_, h3⟩ | ⟨hq3, h3⟩
      · right; left
        have := occursAt_mem_occursSet (by decide) h3
        rw [occursSet_rp_wrapPre] at this
        have h12 := List.mem_singleton.mp this
        omega
      · rcases occursAt_append_split_right h3
          (show (wrapPost ++ t2).head? = some '\n' by
            rw [List.head?_append]; rfl) (by decide) with
        ⟨_, h4⟩ | ⟨hq4, h4⟩
        · exfalso
          unfold occursAt at h4
          rw [hno2] at h4
          cases h4
        · rcases occursAt_append_split_left h4
            (show wrapPost.getLast? = some ' ' by decide) (by decide) with
          ⟨_, h5⟩ | ⟨hq5, h5⟩
          · right; right
            have := occursAt_mem_occursSet (by decide) h5
            rw [occursSet_rp_wrapPost] at this
            have h13 := List.mem_singleton.mp this
            omega
          · exfalso
            unfold occursAt at h5
            rw [hno3] at h5
            cases h5

/-- The import statement occurs exactly once in the patched layout. -/
theorem countOccur_import_patched {t1 inner t2 out : List Char}
    (hout : out = prependSeg ++ (t1 ++ (wrapPre ++ (inner ++ (wrapPost ++ t2)))))
    (hno1 : ∀ j, isPre rpName (t1.drop j) = false)
    (hno2 : ∀ j, isPre rpName (inner.drop j) = false)
    (hno3 : ∀ j, isPre rpName (t2.drop j) = false)
    (ht1last : t1.getLast? = some '(') :
    countOccur importStatement out = 1 := by
  have hchar : ∀ q, occursAt importStatement out q ↔ q = 0 := by
    intro q
    constructor
    · intro h
      have hrp9 : occursAt rpName out (q + importPre9.length) :=
        occursAt_sub import_decomp h
      rw [show importPre9.length = 9 from by decide] at hrp9
      rw [hout] at hrp9
      have hc1 : out[q + 8]? = some ' ' := by
        have hg := occursAt_getElem h
          (show (8 : Nat) < importStatement.length by decide)
        rw [show importStatement[8]? = some ' ' from by decide] at hg
        exact hg
      rcases rp_positions hno1 hno2 hno3 ht1last hrp9 with h9 | h12 | h13
      · omega
      · exfalso
        have hpos : q + 8 = prependSeg.length + (t1.length + 11) := by omega
        have hc2 : out[q + 8]? = some '<' := by
          rw [hpos, hout, getElem?_append_offset, getElem?_append_offset,
            List.getElem?_append_left
              (show (11 : Nat) < wrapPre.length by decide)]
          decide
        rw [hc1] at hc2
        cases hc2
      · exfalso
        have hpos : q + 8 = prependSeg.length +
            (t1.length + (wrapPre.length + (inner.length + 12))) := by omega
        have hc2 : out[q + 8]? = some '/' := by
          rw [hpos, hout, getElem?_append_offset, getElem?_append_offset,
            getElem?_append_offset, getElem?_append_offset,
            List.getElem?_append_left
              (show (12 : Nat) < wrapPost.length by decide)]
          decide
        rw [hc1] at hc2
        cases hc2
    · intro hq
      subst hq
      unfold occursAt
      rw [List.drop_zero, hout]
      refine isPre_iff_exists.mpr
        ⟨nl2 ++ (t1 ++ (wrapPre ++ (inner ++ (wrapPost ++ t2)))), ?_⟩
      show (importStatement ++ nl2) ++ _ = _
      rw [List.append_assoc]
  have hcp : countOccur importStatement out =
      List.countP (fun i => isPre importStatement (out.drop i))
        (List.range (out.length + 1)) :=
    (List.countP_eq_length_filter _ _).symm
  rw [hcp]
  have hcongr : List.countP (fun i => isPre importStatement (out.drop i))
      (List.range (out.length + 1)) =
      List.countP (fun i => i == 0) (List.range (out.length + 1)) := by
    apply List.countP_congr
    intro x _
    constructor
    · intro hx
      simpa using (hchar x).mp hx
    · intro hx
      exact (hchar x).mpr (by simpa using hx)
  rw [hcongr]
  have hcount : List.countP (fun i => i == 0) (List.range (out.length + 1)) =
      List.count 0 (List.range (out.length + 1)) := rfl
  rw [hcount]
  exact List.count_eq_one_of_mem (List.nodup_range _)
    (List.mem_range.mpr (by omega))

/-! ## C4: single-return-block layout is patched correctly -/

/-- The content written back on a successful patch: the import line, a
blank line, the original text up to and including the first return-open,
the wrapper opening tag, the trimmed original return body, the wrapper
closing tag, and the original text from the last close-pattern on, with
its trailing whitespace removed. -/
def patchedOut (c : List Char) (i e : Nat) : List Char :=
  prependSeg ++ (c.take (i + retOpen.length) ++
    ((wrapPre ++ (jsTrim ((c.drop (i + retOpen.length)).take
      (e - (i + retOpen.length))) ++ wrapPost)) ++ trimRight (c.drop e)))

/-- C4: for a layout containing exactly one return-block pattern and no
wrapper name, the run rewrites the file to patchedOut: the import line is
present exactly once, and the original inner markup (trimmed) sits one
level inside the wrapper opening and closing tags, with the surrounding
text carried over. -/
theorem layout_single_block_patched (fs : FState) (c : List Char) (i e : Nat)
    (hl : fs.layout = some c)
    (hrp : containsSub rpName c = false)
    (hic : indexOfSub retOpen c = some i)
    (hec : lastIndexOfSub closePat c = some e)
    (hlt : i + retOpen.length < e)
    (_hone1 : countOccur retOpen c = 1)
    (_hone2 : countOccur closePat c = 1) :
    (runSetup InstallResult.ok fs).2.1.layout = some (patchedOut c i e) ∧
    countOccur importStatement (patchedOut c i e) = 1 := by
  have hcore : patchExisting c = patchCore (prependSeg ++ c) :=
    patchExisting_eq_core hrp
  have hps := patchCore_prepend_success hic hec hlt
  constructor
  · cases hpe : patchExisting c with
    | mk w m =>
      have hw : w = some (patchedOut c i e) := by
        have h2 := hps
        rw [← hcore, hpe] at h2
        exact h2
      subst hw
      simp [runSetup, hl, hpe]
  · have hshape : patchedOut c i e = prependSeg ++
        (c.take (i + retOpen.length) ++ (wrapPre ++
          (jsTrim ((c.drop (i + retOpen.length)).take
            (e - (i + retOpen.length))) ++
            (wrapPost ++ trimRight (c.drop e))))) := by
      simp [patchedOut, List.append_assoc]
    exact countOccur_import_patched hshape
      (no_occurs_take hrp _)
      (no_occurs_jsTrim_drop_take hrp _ _)
      (no_occurs_trimRight_drop hrp _)
      (by
        rw [take_at_retOpen (indexOfSub_some_occurs hic), List.getLast?_append]
        rfl)

/-- C4 (witness): the single-return-block layout tailNlLayout is rewritten
to tailNlPatched, which contains the import line exactly once. -/
theorem layout_single_block_patched_witness :
    (runSetup InstallResult.ok
        { demoSlice := none, store := none, provider := none,
          layout := some tailNlLayout }).2.1.layout = some tailNlPatched ∧
    countOccur importStatement tailNlPatched = 1 := by
  obtain ⟨h1, h2⟩ := layout_single_block_patched
    { demoSlice := none, store := none, provider := none,
      layout := some tailNlLayout } tailNlLayout 32 56
    rfl (by decide) (by decide) (by decide) (by decide) (by decide) (by decide)
  have he : patchedOut tailNlLayout 32 56 = tailNlPatched := by decide
  rw [he] at h1 h2
  exact ⟨h1, h2⟩
